import Mathlib

/-!
# Verification of `tensorflow_datasets/core/shuffle.py`

A shallow embedding of the external-memory shuffler:

* `get_bucket_number` — the bucket selector.  The source computes
  `min(math.trunc((hkey * num_buckets) / max_hkey), num_buckets - 1)` where `/` is
  Python float (binary64) true division of two arbitrary-precision integers, which
  CPython rounds correctly to nearest, ties to even.  We model that rounding
  exactly (`floatTruncDiv`): the quotient `a / 2^128` is a positive normal double
  whenever `0 < a`, so the result is `m * 2^(e-52)` with `2^52 ≤ m ≤ 2^53`, and
  `math.trunc` of it is `m * 2^(e-52)` floored.  The optional `max_hkey` argument
  defaults to `2**HKEY_SIZE` and is never overridden anywhere in the repository,
  so the model fixes the denominator to `2^128`.
* `_Bucket` — on-disk record frames and their parser (`read_values`).
* `Shuffler` — the in-memory/spilled state machine, `add` and iteration.
-/

namespace Shuffle

/-! ## Constants (from the module head of `shuffle.py`) -/

def MAX_MEM_BUFFER_SIZE : ℕ := 1000 <<< 20

def BUCKETS_NUMBER : ℕ := 1000

def HKEY_SIZE : ℕ := 128

def HKEY_SIZE_BYTES : ℕ := HKEY_SIZE / 8

/-! ## Binary64 model of Python's int-by-int true division

CPython's `int.__truediv__` returns the binary64 float nearest the exact
quotient (ties to even).  For `a / 2^128` with `0 < a < 2^320` the quotient is a
positive normal double, so it equals `m * 2^(n-128-52)` where `n = ⌊log2 a⌋` and
`m` is the scaled significand `a * 2^52 / 2^n` rounded to the nearest integer,
ties to even.  `math.trunc` of that nonnegative value is its floor. -/

/-- Round `num / den` to the nearest natural number, ties to even. -/
def rhe (num den : ℕ) : ℕ :=
  if 2 * (num % den) < den then num / den
  else if den < 2 * (num % den) then num / den + 1
  else if num / den % 2 = 0 then num / den else num / den + 1

/-- `⌊log2 a⌋` for `1 ≤ a`, computed with explicit fuel so that it reduces in the
kernel (the fuel `320` suffices for every value below `2^320`; all integers this
program divides by `2^128` are far below that). -/
def bitLenAux : ℕ → ℕ → ℕ
  | 0, _ => 0
  | fuel + 1, a => if a ≤ 1 then 0 else bitLenAux fuel (a / 2) + 1

def bitLen (a : ℕ) : ℕ := bitLenAux 320 a

/-- `math.trunc(a / 2**128)` under CPython semantics: the exact quotient is
rounded to the nearest binary64 (ties to even), then truncated toward zero.
Exact for every `a < 2^320` (far beyond all uses in the source). -/
def floatTruncDiv (a : ℕ) : ℕ :=
  if a = 0 then 0
  else
    let n := bitLen a
    let m := rhe (a * 2 ^ 52) (2 ^ n)
    -- the double is m * 2^(n-180); truncate toward zero:
    if 180 ≤ n then m * 2 ^ (n - 180) else m / 2 ^ (180 - n)

/-- `math.trunc(a / 2**128)` for a Python `int` of either sign: float rounding is
symmetric and `math.trunc` truncates toward zero. -/
def floatTruncDivInt (a : ℤ) : ℤ :=
  if 0 ≤ a then (floatTruncDiv a.toNat : ℤ) else -(floatTruncDiv (-a).toNat : ℤ)

/-- `get_bucket_number(hkey, num_buckets)` from `shuffle.py` (lines 101–111), at
the default `max_hkey = 2**HKEY_SIZE` (the only way the repository calls it):
`min(math.trunc((hkey * num_buckets) / 2**128), num_buckets - 1)`. -/
def get_bucket_number (hkey : ℕ) (num_buckets : ℕ) : ℕ :=
  min (floatTruncDiv (hkey * num_buckets)) (num_buckets - 1)

/-- The bucket selector as the spec states it (`§4.3`): the *exact* integer value
`min(⌊hkey · B / 2^128⌋, B − 1)`.  Kept separate from `get_bucket_number` so the
two can be compared. -/
def bucket_index_spec (hkey : ℕ) (num_buckets : ℕ) : ℕ :=
  min (hkey * num_buckets / 2 ^ HKEY_SIZE) (num_buckets - 1)

/-! ### Properties of the binary64 division model -/

theorem bitLenAux_spec :
    ∀ (fuel a : ℕ), 0 < a → a < 2 ^ fuel →
      2 ^ bitLenAux fuel a ≤ a ∧ a < 2 ^ (bitLenAux fuel a + 1) := by
  intro fuel
  induction fuel with
  | zero => intro a h0 h1; simp at h1; omega
  | succ f ih =>
    intro a h0 h1
    by_cases hle : a ≤ 1
    · have : a = 1 := by omega
      subst this
      simp [bitLenAux]
    · have h2 : 2 ≤ a := by omega
      have hdiv0 : 0 < a / 2 := Nat.lt_of_lt_of_le Nat.zero_lt_one (by omega : 1 ≤ a / 2)
      have hdivlt : a / 2 < 2 ^ f := by
        rw [Nat.div_lt_iff_lt_mul (by norm_num : 0 < 2)]
        calc a < 2 ^ (f + 1) := h1
        _ = 2 ^ f * 2 := by ring
      obtain ⟨hlo, hhi⟩ := ih (a / 2) hdiv0 hdivlt
      have hstep : bitLenAux (f + 1) a = bitLenAux f (a / 2) + 1 := by
        simp [bitLenAux, hle]
      rw [hstep]
      constructor
      · calc 2 ^ (bitLenAux f (a / 2) + 1) = 2 * 2 ^ bitLenAux f (a / 2) := by ring
        _ ≤ 2 * (a / 2) := by omega
        _ ≤ a := Nat.mul_div_le a 2
      · have : a < 2 * (a / 2) + 2 := by omega
        calc a < 2 * (a / 2) + 2 := this
        _ ≤ 2 * (2 ^ (bitLenAux f (a / 2) + 1) - 1) + 2 := by
              have : a / 2 ≤ 2 ^ (bitLenAux f (a / 2) + 1) - 1 := by omega
              omega
        _ ≤ 2 ^ (bitLenAux f (a / 2) + 1 + 1) := by
              have : 1 ≤ 2 ^ (bitLenAux f (a / 2) + 1) := Nat.one_le_two_pow
              rw [pow_succ]
              omega

theorem bitLen_spec {a : ℕ} (h0 : 0 < a) (h1 : a < 2 ^ 320) :
    2 ^ bitLen a ≤ a ∧ a < 2 ^ (bitLen a + 1) :=
  bitLenAux_spec 320 a h0 h1

/-- `rhe` rounds up by at most one. -/
theorem rhe_le {num den : ℕ} : rhe num den ≤ num / den + 1 := by
  unfold rhe
  split_ifs <;> omega

/-- `rhe` never rounds below the floor. -/
theorem rhe_ge {num den : ℕ} : num / den ≤ rhe num den := by
  unfold rhe
  split_ifs <;> omega

/-- With a fixed denominator, round-half-even is monotone in the numerator. -/
theorem rhe_mono {num num' den : ℕ} (h : num ≤ num') :
    rhe num den ≤ rhe num' den := by
  have hq : num / den ≤ num' / den := Nat.div_le_div_right h
  by_cases heq : num / den = num' / den
  · have hmod := Nat.div_add_mod num den
    have hmod' := Nat.div_add_mod num' den
    rw [← heq] at hmod'
    have hr : num % den ≤ num' % den := by omega
    unfold rhe
    rw [← heq]
    split_ifs <;> omega
  · calc rhe num den ≤ num / den + 1 := rhe_le
      _ ≤ num' / den := by omega
      _ ≤ rhe num' den := rhe_ge

/-- Bounds for the scaled significand before rounding. -/
theorem scaled_quot_bounds {a : ℕ} (h0 : 0 < a) (h1 : a < 2 ^ 320) :
    2 ^ 52 ≤ a * 2 ^ 52 / 2 ^ bitLen a ∧ a * 2 ^ 52 / 2 ^ bitLen a < 2 ^ 53 := by
  obtain ⟨hlo, hhi⟩ := bitLen_spec h0 h1
  have hden : (0:ℕ) < 2 ^ bitLen a := Nat.pos_pow_of_pos _ (by norm_num)
  constructor
  · rw [Nat.le_div_iff_mul_le hden]
    calc 2 ^ 52 * 2 ^ bitLen a = 2 ^ bitLen a * 2 ^ 52 := by ring
      _ ≤ a * 2 ^ 52 := Nat.mul_le_mul_right _ hlo
  · rw [Nat.div_lt_iff_lt_mul hden]
    calc a * 2 ^ 52 < 2 ^ (bitLen a + 1) * 2 ^ 52 := by
          exact Nat.mul_lt_mul_of_lt_of_le hhi (le_refl _) (by norm_num)
      _ = 2 ^ 53 * 2 ^ bitLen a := by ring

/-- Bounds for the rounded significand: `2^52 ≤ m ≤ 2^53`. -/
theorem rounded_sig_bounds {a : ℕ} (h0 : 0 < a) (h1 : a < 2 ^ 320) :
    2 ^ 52 ≤ rhe (a * 2 ^ 52) (2 ^ bitLen a) ∧
      rhe (a * 2 ^ 52) (2 ^ bitLen a) ≤ 2 ^ 53 := by
  obtain ⟨hq1, hq2⟩ := scaled_quot_bounds h0 h1
  exact ⟨le_trans hq1 rhe_ge, le_trans rhe_le (by omega)⟩

/-- The float division never undershoots the exact floor:
`⌊a / 2^128⌋ ≤ floatTruncDiv a` (for `a` below `2^180`, which covers every
`hkey * 1000` with `hkey < 2^128` and more). -/
theorem floatTruncDiv_lower {a : ℕ} (h1 : a < 2 ^ 180) :
    a / 2 ^ 128 ≤ floatTruncDiv a := by
  rcases Nat.eq_zero_or_pos a with rfl | h0
  · simp [floatTruncDiv]
  have h320 : a < 2 ^ 320 := lt_trans h1 (by norm_num)
  have hn : bitLen a < 180 := by
    obtain ⟨hlo, _⟩ := bitLen_spec h0 h320
    by_contra hge
    push_neg at hge
    have : (2:ℕ) ^ 180 ≤ 2 ^ bitLen a := Nat.pow_le_pow_right (by norm_num) hge
    omega
  unfold floatTruncDiv
  rw [if_neg (by omega), if_neg (by omega)]
  have key : a * 2 ^ 52 / 2 ^ bitLen a / 2 ^ (180 - bitLen a) = a / 2 ^ 128 := by
    rw [Nat.div_div_eq_div_mul, ← pow_add]
    have : bitLen a + (180 - bitLen a) = 180 := by omega
    rw [this]
    have h180 : (2:ℕ) ^ 180 = 2 ^ 128 * 2 ^ 52 := by norm_num
    rw [h180, Nat.mul_div_mul_right _ _ (by norm_num : (0:ℕ) < 2 ^ 52)]
  calc a / 2 ^ 128 = a * 2 ^ 52 / 2 ^ bitLen a / 2 ^ (180 - bitLen a) := key.symm
    _ ≤ rhe (a * 2 ^ 52) (2 ^ bitLen a) / 2 ^ (180 - bitLen a) :=
        Nat.div_le_div_right rhe_ge

/-- The float division overshoots the exact floor by at most one (same range). -/
theorem floatTruncDiv_upper {a : ℕ} (h1 : a < 2 ^ 180) :
    floatTruncDiv a ≤ a / 2 ^ 128 + 1 := by
  rcases Nat.eq_zero_or_pos a with rfl | h0
  · simp [floatTruncDiv]
  have h320 : a < 2 ^ 320 := lt_trans h1 (by norm_num)
  have hn : bitLen a < 180 := by
    obtain ⟨hlo, _⟩ := bitLen_spec h0 h320
    by_contra hge
    push_neg at hge
    have : (2:ℕ) ^ 180 ≤ 2 ^ bitLen a := Nat.pow_le_pow_right (by norm_num) hge
    omega
  unfold floatTruncDiv
  rw [if_neg (by omega), if_neg (by omega)]
  have key : a * 2 ^ 52 / 2 ^ bitLen a / 2 ^ (180 - bitLen a) = a / 2 ^ 128 := by
    rw [Nat.div_div_eq_div_mul, ← pow_add]
    have : bitLen a + (180 - bitLen a) = 180 := by omega
    rw [this]
    have h180 : (2:ℕ) ^ 180 = 2 ^ 128 * 2 ^ 52 := by norm_num
    rw [h180, Nat.mul_div_mul_right _ _ (by norm_num : (0:ℕ) < 2 ^ 52)]
  have hden : (0:ℕ) < 2 ^ (180 - bitLen a) := Nat.pos_pow_of_pos _ (by norm_num)
  calc rhe (a * 2 ^ 52) (2 ^ bitLen a) / 2 ^ (180 - bitLen a)
      ≤ (a * 2 ^ 52 / 2 ^ bitLen a + 1) / 2 ^ (180 - bitLen a) :=
        Nat.div_le_div_right rhe_le
    _ ≤ (a * 2 ^ 52 / 2 ^ bitLen a + 2 ^ (180 - bitLen a)) / 2 ^ (180 - bitLen a) :=
        Nat.div_le_div_right (by omega)
    _ = a * 2 ^ 52 / 2 ^ bitLen a / 2 ^ (180 - bitLen a) + 1 := by
        rw [Nat.add_div_right _ hden]
    _ = a / 2 ^ 128 + 1 := by rw [key]

/-- Correct rounding is monotone, hence so is the modelled float division. -/
theorem floatTruncDiv_mono {a a' : ℕ} (h : a ≤ a') (ha' : a' < 2 ^ 320) :
    floatTruncDiv a ≤ floatTruncDiv a' := by
  rcases Nat.eq_zero_or_pos a with rfl | h0
  · simp [floatTruncDiv]
  have h0' : 0 < a' := lt_of_lt_of_le h0 h
  have ha : a < 2 ^ 320 := lt_of_le_of_lt h ha'
  obtain ⟨hlo, hhi⟩ := bitLen_spec h0 ha
  obtain ⟨hlo', hhi'⟩ := bitLen_spec h0' ha'
  obtain ⟨hm1, hm2⟩ := rounded_sig_bounds h0 ha
  obtain ⟨hm1', hm2'⟩ := rounded_sig_bounds h0' ha'
  have hnn : bitLen a ≤ bitLen a' := by
    have hlt : (2:ℕ) ^ bitLen a < 2 ^ (bitLen a' + 1) :=
      lt_of_le_of_lt (le_trans hlo h) hhi'
    have := (Nat.pow_lt_pow_iff_right (by norm_num : 1 < 2)).mp hlt
    omega
  have hfa : floatTruncDiv a =
      if 180 ≤ bitLen a then rhe (a * 2 ^ 52) (2 ^ bitLen a) * 2 ^ (bitLen a - 180)
      else rhe (a * 2 ^ 52) (2 ^ bitLen a) / 2 ^ (180 - bitLen a) := by
    unfold floatTruncDiv
    rw [if_neg (by omega)]
  have hfa' : floatTruncDiv a' =
      if 180 ≤ bitLen a' then rhe (a' * 2 ^ 52) (2 ^ bitLen a') * 2 ^ (bitLen a' - 180)
      else rhe (a' * 2 ^ 52) (2 ^ bitLen a') / 2 ^ (180 - bitLen a') := by
    unfold floatTruncDiv
    rw [if_neg (by omega)]
  rcases Nat.lt_or_ge (bitLen a) (bitLen a') with hlt | hge
  · -- distinct exponents: compare through 2^(n-127) ≤ 2^(n'-128)
    by_cases hsmall : bitLen a ≤ 126
    · -- the smaller value truncates to 0
      have : floatTruncDiv a = 0 := by
        rw [hfa, if_neg (by omega)]
        apply Nat.div_eq_of_lt
        calc rhe (a * 2 ^ 52) (2 ^ bitLen a) ≤ 2 ^ 53 := hm2
          _ < 2 ^ (180 - bitLen a) := Nat.pow_lt_pow_right (by norm_num) (by omega)
      omega
    · have hn127 : 127 ≤ bitLen a := by omega
      have hn128 : 128 ≤ bitLen a' := by omega
      have hup : floatTruncDiv a ≤ 2 ^ (bitLen a - 127) := by
        rw [hfa]
        by_cases hcase : 180 ≤ bitLen a
        · rw [if_pos hcase]
          calc rhe (a * 2 ^ 52) (2 ^ bitLen a) * 2 ^ (bitLen a - 180)
              ≤ 2 ^ 53 * 2 ^ (bitLen a - 180) := Nat.mul_le_mul_right _ hm2
            _ = 2 ^ (53 + (bitLen a - 180)) := (pow_add 2 53 _).symm
            _ = 2 ^ (bitLen a - 127) := by
                  have he : 53 + (bitLen a - 180) = bitLen a - 127 := by omega
                  rw [he]
        · rw [if_neg hcase]
          calc rhe (a * 2 ^ 52) (2 ^ bitLen a) / 2 ^ (180 - bitLen a)
              ≤ 2 ^ 53 / 2 ^ (180 - bitLen a) := Nat.div_le_div_right hm2
            _ = 2 ^ (53 - (180 - bitLen a)) := Nat.pow_div (by omega) (by norm_num)
            _ = 2 ^ (bitLen a - 127) := by
                  have he : 53 - (180 - bitLen a) = bitLen a - 127 := by omega
                  rw [he]
      have hdown : 2 ^ (bitLen a' - 128) ≤ floatTruncDiv a' := by
        rw [hfa']
        by_cases hcase : 180 ≤ bitLen a'
        · rw [if_pos hcase]
          calc (2:ℕ) ^ (bitLen a' - 128) = 2 ^ (52 + (bitLen a' - 180)) := by
                  have he : bitLen a' - 128 = 52 + (bitLen a' - 180) := by omega
                  rw [he]
            _ = 2 ^ 52 * 2 ^ (bitLen a' - 180) := pow_add 2 52 _
            _ ≤ rhe (a' * 2 ^ 52) (2 ^ bitLen a') * 2 ^ (bitLen a' - 180) :=
                Nat.mul_le_mul_right _ hm1'
        · rw [if_neg hcase]
          calc (2:ℕ) ^ (bitLen a' - 128) = 2 ^ (52 - (180 - bitLen a')) := by
                  have he : bitLen a' - 128 = 52 - (180 - bitLen a') := by omega
                  rw [he]
            _ = 2 ^ 52 / 2 ^ (180 - bitLen a') := (Nat.pow_div (by omega) (by norm_num)).symm
            _ ≤ rhe (a' * 2 ^ 52) (2 ^ bitLen a') / 2 ^ (180 - bitLen a') :=
                Nat.div_le_div_right hm1'
      calc floatTruncDiv a ≤ 2 ^ (bitLen a - 127) := hup
        _ ≤ 2 ^ (bitLen a' - 128) := Nat.pow_le_pow_right (by norm_num) (by omega)
        _ ≤ floatTruncDiv a' := hdown
  · -- equal exponents: the rounded significand is monotone
    have heq : bitLen a = bitLen a' := by omega
    have hmm : rhe (a * 2 ^ 52) (2 ^ bitLen a) ≤ rhe (a' * 2 ^ 52) (2 ^ bitLen a) :=
      rhe_mono (Nat.mul_le_mul_right _ h)
    rw [hfa, hfa', ← heq]
    by_cases hcase : 180 ≤ bitLen a
    · rw [if_pos hcase, if_pos hcase]
      exact Nat.mul_le_mul_right _ hmm
    · rw [if_neg hcase, if_neg hcase]
      exact Nat.div_le_div_right hmm

/-! ### Consequences for `get_bucket_number` -/

/-- `get_bucket_number` is monotone non-decreasing on all of `ℕ`
(used both for the claim about `[0, 2^128)` and for the bucket-sort refinement). -/
theorem get_bucket_number_mono {h h' : ℕ} (hle : h ≤ h') (hub : h' < 2 ^ 128) :
    get_bucket_number h BUCKETS_NUMBER ≤ get_bucket_number h' BUCKETS_NUMBER := by
  unfold get_bucket_number
  have hmul : h * BUCKETS_NUMBER ≤ h' * BUCKETS_NUMBER := Nat.mul_le_mul_right _ hle
  have hub' : h' * BUCKETS_NUMBER < 2 ^ 320 := by
    have : h' * BUCKETS_NUMBER < 2 ^ 128 * 1000 := by
      unfold BUCKETS_NUMBER
      exact Nat.mul_lt_mul_of_lt_of_le hub (le_refl _) (by norm_num)
    calc h' * BUCKETS_NUMBER < 2 ^ 128 * 1000 := this
      _ < 2 ^ 320 := by norm_num
  exact min_le_min_right _ (floatTruncDiv_mono hmul hub')

/-- Sandwich: the computed bucket is the exact one or the exact one plus one
(clamped to 999).  `bucket_index_spec` is the exact formula from the spec. -/
theorem get_bucket_number_sandwich {h : ℕ} (hub : h < 2 ^ 128) :
    bucket_index_spec h BUCKETS_NUMBER ≤ get_bucket_number h BUCKETS_NUMBER ∧
      get_bucket_number h BUCKETS_NUMBER ≤
        min (h * BUCKETS_NUMBER / 2 ^ HKEY_SIZE + 1) (BUCKETS_NUMBER - 1) := by
  have hrange : h * BUCKETS_NUMBER < 2 ^ 180 := by
    have : h * BUCKETS_NUMBER < 2 ^ 128 * 1000 := by
      unfold BUCKETS_NUMBER
      exact Nat.mul_lt_mul_of_lt_of_le hub (le_refl _) (by norm_num)
    calc h * BUCKETS_NUMBER < 2 ^ 128 * 1000 := this
      _ < 2 ^ 180 := by norm_num
  unfold bucket_index_spec get_bucket_number HKEY_SIZE
  constructor
  · exact min_le_min_right _ (floatTruncDiv_lower hrange)
  · exact min_le_min_right _ (floatTruncDiv_upper hrange)

/-! ## `_Bucket`: the on-disk frame codec

A bucket file is a byte sequence (modelled as `List ℕ`, one entry per byte).
`struct` *standard* sizes are forced by `'='` (8 bytes per `Q`); `'='` byte
order is the host's, little-endian on the hosts this program targets, which is
what we model (the source notes the temporary files are written and read by the
same platform). -/

/-- `k`-byte little-endian encoding of `v % 2^(8k)` (one `Q` frame is `leBytes 8`). -/
def leBytes : ℕ → ℕ → List ℕ
  | 0, _ => []
  | k + 1, v => v % 256 :: leBytes k (v / 256)

/-- Value of a little-endian byte string (how `struct.unpack` reads a `Q`). -/
def leVal : List ℕ → ℕ
  | [] => 0
  | b :: bs => b + 256 * leVal bs

/-- `_hkey_to_bytes` (`shuffle.py` lines 60–63):
`struct.pack('=QQ', (hkey >> 64) & max_int64, hkey & max_int64)`. -/
def hkey_to_bytes (hkey : ℕ) : List ℕ :=
  leBytes 8 ((hkey >>> 64) &&& 0xFFFFFFFFFFFFFFFF) ++
    leBytes 8 (hkey &&& 0xFFFFFFFFFFFFFFFF)

/-- `_read_hkey` (`shuffle.py` lines 66–69): `a, b = struct.unpack('=QQ', buff)`,
result `(a << 64) | b`. -/
def read_hkey (buff : List ℕ) : ℕ :=
  (leVal (buff.take 8) <<< 64) ||| leVal (buff.drop 8)

/-- The byte stream appended to the bucket file by one `_Bucket.add(hkey, data)`
(lines 151–182): the packed hkey, the packed 8-byte `len(data)`, then `data`.
(`struct.pack('=Q', n)` requires `n < 2^64`; payloads above that are physically
impossible.) -/
def bucketFrame (hkey : ℕ) (data : List ℕ) : List ℕ :=
  hkey_to_bytes hkey ++ leBytes 8 data.length ++ data

/-- Whole file written by a sequence of `_Bucket.add` calls, in call order. -/
def bucketFile (recs : List (ℕ × List ℕ)) : List ℕ :=
  (recs.map fun r => bucketFrame r.1 r.2).flatten

/-- `_Bucket.read_values` (lines 189–207) as a parser of the file bytes:
read 16 bytes (stop cleanly on EOF), unpack the hkey, read the 8-byte size,
then `size` bytes of payload (`fobj.read` returns at most that much).
A non-empty final fragment shorter than a full `'=QQ'`/`'=Q'` frame makes
`struct.unpack` raise, modelled as `Except.error`. -/
def read_values (file : List ℕ) : Except Unit (List (ℕ × List ℕ)) :=
  if file.isEmpty then .ok []
  else
    let buff := file.take HKEY_SIZE_BYTES
    if buff.length < HKEY_SIZE_BYTES then .error ()
    else
      let hkey := read_hkey buff
      let rest := file.drop HKEY_SIZE_BYTES
      let size_bytes := rest.take 8
      if size_bytes.length < 8 then .error ()
      else
        let size := leVal size_bytes
        let rest2 := rest.drop 8
        match read_values (rest2.drop size) with
        | .ok l => .ok ((hkey, rest2.take size) :: l)
        | .error e => .error e
termination_by file.length
decreasing_by
  all_goals
    simp only [List.length_drop]
    have : file.length ≠ 0 := by
      intro hc
      exact absurd (List.isEmpty_iff_length_eq_zero.mpr hc) (by simp_all)
    omega

/-! ### Codec round-trip -/

theorem leBytes_length (k v : ℕ) : (leBytes k v).length = k := by
  induction k generalizing v with
  | zero => rfl
  | succ n ih => simp [leBytes, ih]

theorem leVal_leBytes {k v : ℕ} (h : v < 2 ^ (8 * k)) : leVal (leBytes k v) = v := by
  induction k generalizing v with
  | zero => simp at h; simp [leBytes, leVal, h]
  | succ n ih =>
    have hdiv : v / 256 < 2 ^ (8 * n) := by
      rw [Nat.div_lt_iff_lt_mul (by norm_num : (0:ℕ) < 256)]
      calc v < 2 ^ (8 * (n + 1)) := h
        _ = 2 ^ (8 * n) * 256 := by rw [Nat.mul_succ, pow_add]; norm_num
    simp only [leBytes, leVal, ih hdiv]
    omega

theorem hkey_to_bytes_length (hkey : ℕ) : (hkey_to_bytes hkey).length = 16 := by
  simp [hkey_to_bytes, leBytes_length]

/-- Decoding inverts encoding for every 128-bit hkey. -/
theorem read_hkey_hkey_to_bytes {hkey : ℕ} (h : hkey < 2 ^ 128) :
    read_hkey (hkey_to_bytes hkey) = hkey := by
  have hmask : (0xFFFFFFFFFFFFFFFF : ℕ) = 2 ^ 64 - 1 := by norm_num
  have hhi : (hkey >>> 64) &&& 0xFFFFFFFFFFFFFFFF = hkey / 2 ^ 64 := by
    rw [hmask, Nat.and_pow_two_sub_one_eq_mod, Nat.shiftRight_eq_div_pow]
    apply Nat.mod_eq_of_lt
    rw [Nat.div_lt_iff_lt_mul (by norm_num : (0:ℕ) < 2 ^ 64)]
    calc hkey < 2 ^ 128 := h
      _ = 2 ^ 64 * 2 ^ 64 := by norm_num
  have hlo : hkey &&& 0xFFFFFFFFFFFFFFFF = hkey % 2 ^ 64 := by
    rw [hmask, Nat.and_pow_two_sub_one_eq_mod]
  unfold read_hkey hkey_to_bytes
  rw [hhi, hlo]
  have hlen : (leBytes 8 (hkey / 2 ^ 64)).length = 8 := leBytes_length 8 _
  rw [List.take_append_of_le_length (by rw [hlen]),
      List.drop_append_of_le_length (by rw [hlen])]
  have h8 : (leBytes 8 (hkey / 2 ^ 64)).take 8 = leBytes 8 (hkey / 2 ^ 64) :=
    List.take_of_length_le (by rw [hlen])
  have h8' : (leBytes 8 (hkey / 2 ^ 64)).drop 8 = [] :=
    List.drop_of_length_le (by rw [hlen])
  rw [h8, h8', List.nil_append]
  have hdivlt : hkey / 2 ^ 64 < 2 ^ (8 * 8) := by
    rw [Nat.div_lt_iff_lt_mul (by norm_num : (0:ℕ) < 2 ^ 64)]
    calc hkey < 2 ^ 128 := h
      _ = 2 ^ (8 * 8) * 2 ^ 64 := by norm_num
  have hmodlt : hkey % 2 ^ 64 < 2 ^ (8 * 8) := by
    have := Nat.mod_lt hkey (show (0:ℕ) < 2 ^ 64 by norm_num)
    calc hkey % 2 ^ 64 < 2 ^ 64 := this
      _ ≤ 2 ^ (8 * 8) := by norm_num
  rw [leVal_leBytes hdivlt, leVal_leBytes hmodlt]
  rw [Nat.shiftLeft_eq, Nat.mul_comm (hkey / 2 ^ 64) (2 ^ 64),
    ← Nat.mul_add_lt_is_or (Nat.mod_lt hkey (show (0:ℕ) < 2 ^ 64 by norm_num))
      (hkey / 2 ^ 64)]
  exact Nat.div_add_mod hkey (2 ^ 64)

/-- Parsing one well-formed frame off the front of a file. -/
theorem read_values_frame {h : ℕ} {d tail : List ℕ} (hh : h < 2 ^ 128)
    (hd : d.length < 2 ^ 64) :
    read_values (bucketFrame h d ++ tail) =
      match read_values tail with
      | .ok l => .ok ((h, d) :: l)
      | .error e => .error e := by
  have hAlen : (hkey_to_bytes h).length = 16 := hkey_to_bytes_length h
  have hBlen : (leBytes 8 d.length).length = 8 := leBytes_length 8 _
  have hfile : bucketFrame h d ++ tail =
      hkey_to_bytes h ++ (leBytes 8 d.length ++ (d ++ tail)) := by
    simp [bucketFrame, List.append_assoc]
  have h16 : HKEY_SIZE_BYTES = 16 := rfl
  rw [read_values, hfile]
  have hne : (hkey_to_bytes h ++ (leBytes 8 d.length ++ (d ++ tail))).isEmpty = false := by
    rcases hA : hkey_to_bytes h with _ | ⟨b, bs⟩
    · rw [hA] at hAlen; simp at hAlen
    · simp
  rw [if_neg (by rw [hne]; simp)]
  rw [h16, List.take_left' hAlen, List.drop_left' hAlen]
  rw [if_neg (by rw [hAlen]; omega)]
  rw [read_hkey_hkey_to_bytes hh]
  dsimp only
  rw [List.take_left' hBlen, List.drop_left' hBlen]
  rw [if_neg (by rw [hBlen]; omega)]
  have hdlen : d.length < 2 ^ (8 * 8) := by
    calc d.length < 2 ^ 64 := hd
      _ = 2 ^ (8 * 8) := by norm_num
  rw [leVal_leBytes hdlen]
  rw [List.take_left' rfl, List.drop_left' rfl]

/-- `_Bucket` round-trip: adding any sequence of records and reading the file
back yields exactly that sequence. -/
theorem read_values_bucketFile {recs : List (ℕ × List ℕ)}
    (hrecs : ∀ r ∈ recs, r.1 < 2 ^ 128 ∧ r.2.length < 2 ^ 64) :
    read_values (bucketFile recs) = .ok recs := by
  induction recs with
  | nil => rw [read_values]; rfl
  | cons r rs ih =>
    obtain ⟨hh, hd⟩ := hrecs r (List.mem_cons_self r rs)
    have hfile : bucketFile (r :: rs) = bucketFrame r.1 r.2 ++ bucketFile rs := by
      simp [bucketFile]
    rw [hfile, read_values_frame hh hd,
      ih fun x hx => hrecs x (List.mem_cons_of_mem r hx)]

/-! ## The `Shuffler` state machine

Keys are Python ints, modelled as `ℤ` (`type_utils.Key` also admits `str` and
`bytes`, but with `disable_shuffling` a non-`int` key is only ever *rejected* —
by the `isinstance` assertion in `_add_to_bucket` — so no non-`int` key can
reach any state we track; with shuffling enabled the hkey is the hasher's
128-bit output).  A payload is `bytes`, i.e. `List ℕ`; the
`isinstance(data, bytes)` check in `add` holds by typing.  A `_Bucket` is
identified with the record sequence of its file, justified by
`read_values_bucketFile`.  `bucket_lengths` is backed by the `_length`
counters, and `del_file` during iteration touches neither them nor any state
`add` reads, so iteration's only modelled mutation is `read_only := True`. -/

/-- One record as held by the Shuffler: `(hkey, data)`. -/
abbrev SRecord := ℤ × List ℕ

/-- The errors the modelled operations can raise. -/
inductive PyErr where
  /-- `AssertionError('add() cannot be called after __iter__.')` -/
  | addAfterIter : PyErr
  /-- Python `IndexError` from `self._buckets[bucket_number]` when the computed
  index is below `-BUCKETS_NUMBER` (possible only for very negative keys). -/
  | indexError : PyErr
deriving DecidableEq, Repr

/-- Mutable state of a `Shuffler` (lines 217–242):  `disable_shuffling`,
`_read_only`, `_total_bytes`, `_in_memory`, `_mem_buffer` (`None` after spill)
and the 1000 `_Bucket`s. -/
structure ShufflerState where
  disable_shuffling : Bool
  read_only : Bool
  total_bytes : ℕ
  in_memory : Bool
  mem_buffer : Option (List SRecord)
  buckets : List (List SRecord)
deriving DecidableEq, Repr

/-- Freshly constructed `Shuffler` (lines 230–242). -/
def initShuffler (disable_shuffling : Bool) : ShufflerState where
  disable_shuffling := disable_shuffling
  read_only := false
  total_bytes := 0
  in_memory := true
  mem_buffer := some []
  buckets := List.replicate BUCKETS_NUMBER []

/-- The list index a record with hashed key `hkey` is stored at: Python's
`self._buckets[b]` on `b = get_bucket_number(...)`, which resolves negative
`b ≥ -len` from the end (`b.emod 1000`).  Always `< 1000`. -/
def bucketIdx (hkey : ℤ) : ℕ :=
  ((min (floatTruncDivInt (hkey * BUCKETS_NUMBER)) (BUCKETS_NUMBER - 1)) %
    (BUCKETS_NUMBER : ℤ)).toNat

/-- `Shuffler._add_to_bucket` (lines 255–264).  `hkey` is an `int` by typing
(the `isinstance` assertion); `self._buckets[bucket_number].add(...)` raises
`IndexError` when `bucket_number < -1000`, otherwise appends to the selected
bucket (negative indices resolve from the end, as in Python). -/
def addToBucket (s : ShufflerState) (hkey : ℤ) (data : List ℕ) :
    ShufflerState × Option PyErr :=
  let bucket_number : ℤ :=
    min (floatTruncDivInt (hkey * BUCKETS_NUMBER)) (BUCKETS_NUMBER - 1)
  if bucket_number < -(BUCKETS_NUMBER : ℤ) then (s, some .indexError)
  else
    let i := bucketIdx hkey
    ({ s with buckets := s.buckets.set i ((s.buckets.getD i []) ++ [(hkey, data)]) },
      none)

/-- The `for hkey, data in self._mem_buffer` drain loop inside
`_add_to_mem_buffer` (lines 269–270); stops at the first error, as a raised
exception would. -/
def spillAll : ShufflerState → List SRecord → ShufflerState × Option PyErr
  | s, [] => (s, none)
  | s, r :: rs =>
    match addToBucket s r.1 r.2 with
    | (s', none) => spillAll s' rs
    | (s', some e) => (s', some e)

/-- `Shuffler._add_to_mem_buffer` (lines 266–272): append, then spill every
buffered record to its bucket once `_total_bytes` exceeds
`MAX_MEM_BUFFER_SIZE` (the buffer is released and `_in_memory` cleared only
after the whole loop succeeds). -/
def addToMemBuffer (s : ShufflerState) (hkey : ℤ) (data : List ℕ) :
    ShufflerState × Option PyErr :=
  let buf := s.mem_buffer.getD [] ++ [(hkey, data)]
  let s1 := { s with mem_buffer := some buf }
  if MAX_MEM_BUFFER_SIZE < s1.total_bytes then
    match spillAll s1 buf with
    | (s2, none) => ({ s2 with mem_buffer := none, in_memory := false }, none)
    | (s2, some e) => (s2, some e)
  else (s1, none)

/-- `Shuffler.add` (lines 274–290).  `hasher` stands for the external
`hashing.Hasher(hash_salt).hash_key`, a 128-bit hash (not part of this
repository).  The `isinstance(data, bytes)` check holds by typing. -/
def Shuffler.add (hasher : ℤ → ℕ) (s : ShufflerState) (key : ℤ)
    (data : List ℕ) : ShufflerState × Option PyErr :=
  if s.read_only then (s, some .addAfterIter)
  else
    let hkey : ℤ := if s.disable_shuffling then key else (hasher key : ℤ)
    let s1 := { s with total_bytes := s.total_bytes + data.length }
    if s1.in_memory then addToMemBuffer s1 hkey data
    else addToBucket s1 hkey data

/-- A sequence of `add` calls, stopped by the first raised error. -/
def addAll (hasher : ℤ → ℕ) : ShufflerState → List (ℤ × List ℕ) →
    ShufflerState × Option PyErr
  | s, [] => (s, none)
  | s, (k, d) :: rs =>
    match Shuffler.add hasher s k d with
    | (s', none) => addAll hasher s' rs
    | (s', some e) => (s', some e)

/-- The hkey `add` stores for a given key. -/
def effHkey (hasher : ℤ → ℕ) (disable_shuffling : Bool) (key : ℤ) : ℤ :=
  if disable_shuffling then key else (hasher key : ℤ)

/-! ### Iteration -/

/-- Python's comparison of `bytes` (lexicographic on byte values), as `sorted`
compares the second tuple components. -/
def bytesLe : List ℕ → List ℕ → Bool
  | [], _ => true
  | _ :: _, [] => false
  | a :: as, b :: bs => if a < b then true else if b < a then false else bytesLe as bs

/-- Python's `≤` on `(hkey, data)` tuples: lexicographic. -/
def recLE (x y : SRecord) : Prop :=
  x.1 < y.1 ∨ (x.1 = y.1 ∧ bytesLe x.2 y.2 = true)

instance : DecidableRel recLE := fun x y =>
  inferInstanceAs (Decidable (x.1 < y.1 ∨ (x.1 = y.1 ∧ bytesLe x.2 y.2 = true)))

/-- `sorted(iterator)` on `(hkey, data)` tuples.  Python's sort is a stable
mergesort, but `recLE` is a total, transitive, antisymmetric order, so *any*
sorted rearrangement is the same list (`List.eq_of_perm_of_sorted`); we use
insertion sort. -/
def sortRecs (l : List SRecord) : List SRecord := l.insertionSort recLE

/-- The emission loop of `Shuffler.__iter__` (lines 294–304): walk the stream
holding the previously yielded record; raise
`DuplicatedKeysError(data, previous_data)` when two consecutive hkeys are
equal.  Returns the yielded prefix and the error payload pair, if any. -/
def emit : Option SRecord → List SRecord → List SRecord × Option (List ℕ × List ℕ)
  | _, [] => ([], none)
  | none, r :: rest =>
    let res := emit (some r) rest
    (r :: res.1, res.2)
  | some p, r :: rest =>
    if r.1 = p.1 then ([], some (r.2, p.2))
    else
      let res := emit (some r) rest
      (r :: res.1, res.2)

/-- `Shuffler.__iter__` (lines 292–304), run eagerly: set `_read_only`, take
the memory buffer or the concatenated buckets, sort unless shuffling is
disabled, then emit with the duplicate check.  Returns the yielded records,
the `DuplicatedKeysError` payloads if one is raised, and the post-state. -/
def Shuffler.iter (s : ShufflerState) :
    (List SRecord × Option (List ℕ × List ℕ)) × ShufflerState :=
  let s' := { s with read_only := true }
  let raw := if s.in_memory then s.mem_buffer.getD [] else s.buckets.flatten
  let stream := if s.disable_shuffling then raw else sortRecs raw
  (emit none stream, s')

/-- Bucket contents after distributing the records of `l`: bucket `i` holds, in
order, the records of `l` whose hkey selects bucket `i`. -/
def bucketsOf (l : List SRecord) : List (List SRecord) :=
  (List.range BUCKETS_NUMBER).map fun i => l.filter fun r => bucketIdx r.1 = i

/-! ### The tuple order is total, transitive, antisymmetric -/

theorem bytesLe_cons {a b : ℕ} {as bs : List ℕ} :
    bytesLe (a :: as) (b :: bs) = true ↔ a < b ∨ (a = b ∧ bytesLe as bs = true) := by
  have hstep : bytesLe (a :: as) (b :: bs) =
      if a < b then true else if b < a then false else bytesLe as bs := rfl
  rw [hstep]
  split_ifs with h1 h2
  · simp [h1]
  · simp only [Bool.false_eq_true, false_iff]
    rintro (hc | ⟨rfl, hc⟩)
    · exact absurd hc (Nat.lt_asymm h2)
    · exact absurd h2 (lt_irrefl a)
  · have heq : a = b := by omega
    subst heq
    simp [lt_irrefl]

theorem bytesLe_total : ∀ a b : List ℕ, bytesLe a b = true ∨ bytesLe b a = true
  | [], _ => .inl rfl
  | _ :: _, [] => .inr rfl
  | a :: as, b :: bs => by
    rw [bytesLe_cons, bytesLe_cons]
    rcases Nat.lt_trichotomy a b with h | h | h
    · exact .inl (.inl h)
    · subst h
      rcases bytesLe_total as bs with h' | h'
      · exact .inl (.inr ⟨rfl, h'⟩)
      · exact .inr (.inr ⟨rfl, h'⟩)
    · exact .inr (.inl h)

theorem bytesLe_trans : ∀ {a b c : List ℕ},
    bytesLe a b = true → bytesLe b c = true → bytesLe a c = true
  | [], _, _, _, _ => rfl
  | _ :: _, [], _, h, _ => by simp [bytesLe] at h
  | _ :: _, _ :: _, [], _, h => by simp [bytesLe] at h
  | a :: as, b :: bs, c :: cs, h1, h2 => by
    rw [bytesLe_cons] at h1 h2 ⊢
    rcases h1 with h1 | ⟨rfl, h1⟩
    · rcases h2 with h2 | ⟨rfl, h2⟩
      · exact .inl (lt_trans h1 h2)
      · exact .inl h1
    · rcases h2 with h2 | ⟨rfl, h2⟩
      · exact .inl h2
      · exact .inr ⟨rfl, bytesLe_trans h1 h2⟩

theorem bytesLe_antisymm : ∀ {a b : List ℕ},
    bytesLe a b = true → bytesLe b a = true → a = b
  | [], [], _, _ => rfl
  | [], _ :: _, _, h => by simp [bytesLe] at h
  | _ :: _, [], h, _ => by simp [bytesLe] at h
  | a :: as, b :: bs, h1, h2 => by
    rw [bytesLe_cons] at h1 h2
    rcases h1 with h1 | ⟨rfl, h1⟩
    · rcases h2 with h2 | ⟨rfl, h2⟩
      · exact absurd h1 (Nat.lt_asymm h2)
      · exact absurd h1 (lt_irrefl _)
    · rcases h2 with h2 | ⟨h2', h2⟩
      · exact absurd h2 (lt_irrefl _)
      · rw [bytesLe_antisymm h1 h2]

instance : IsTotal SRecord recLE where
  total x y := by
    unfold recLE
    rcases Int.lt_trichotomy x.1 y.1 with h | h | h
    · exact .inl (.inl h)
    · rcases bytesLe_total x.2 y.2 with h' | h'
      · exact .inl (.inr ⟨h, h'⟩)
      · exact .inr (.inr ⟨h.symm, h'⟩)
    · exact .inr (.inl h)

instance : IsTrans SRecord recLE where
  trans x y z h1 h2 := by
    unfold recLE at h1 h2 ⊢
    rcases h1 with h1 | ⟨he1, h1⟩
    · rcases h2 with h2 | ⟨he2, h2⟩
      · exact .inl (lt_trans h1 h2)
      · exact .inl (he2 ▸ h1)
    · rcases h2 with h2 | ⟨he2, h2⟩
      · exact .inl (he1 ▸ h2)
      · exact .inr ⟨he1.trans he2, bytesLe_trans h1 h2⟩

instance : IsAntisymm SRecord recLE where
  antisymm x y h1 h2 := by
    unfold recLE at h1 h2
    rcases h1 with h1 | ⟨he1, h1⟩
    · rcases h2 with h2 | ⟨he2, h2⟩
      · exact absurd h1 (Int.lt_asymm h2)
      · exact absurd h1 (he2 ▸ lt_irrefl x.1)
    · rcases h2 with h2 | ⟨he2, h2⟩
      · exact absurd h2 (he1 ▸ lt_irrefl x.1)
      · exact Prod.ext he1 (bytesLe_antisymm h1 h2)

theorem sortRecs_sorted (l : List SRecord) : List.Sorted recLE (sortRecs l) :=
  List.sorted_insertionSort recLE l

theorem sortRecs_perm (l : List SRecord) : List.Perm (sortRecs l) l :=
  List.perm_insertionSort recLE l

/-- Sorting is invariant under permutation (so Python's stable mergesort and
our insertion sort agree: with a total antisymmetric order the sorted
rearrangement is unique). -/
theorem sortRecs_congr {l l' : List SRecord} (h : List.Perm l l') :
    sortRecs l = sortRecs l' :=
  List.eq_of_perm_of_sorted ((sortRecs_perm l).trans (h.trans (sortRecs_perm l').symm))
    (sortRecs_sorted l) (sortRecs_sorted l')

/-! ### The emission loop -/

/-- Adjacent records have different hkeys. -/
def keyNe (x y : SRecord) : Prop := x.1 ≠ y.1

instance : DecidableRel keyNe := fun x y =>
  inferInstanceAs (Decidable (x.1 ≠ y.1))

theorem emit_some_eq : ∀ {l : List SRecord} {p : SRecord},
    List.Chain' keyNe (p :: l) → emit (some p) l = (l, none)
  | [], p, _ => rfl
  | r :: rest, p, h => by
    rw [List.chain'_cons] at h
    have hne : ¬r.1 = p.1 := fun hc => h.1 hc.symm
    unfold emit
    rw [if_neg hne, emit_some_eq h.2]

theorem emit_none_eq {l : List SRecord} (h : List.Chain' keyNe l) :
    emit none l = (l, none) := by
  cases l with
  | nil => rfl
  | cons r rest =>
    unfold emit
    rw [emit_some_eq h]

theorem emit_some_dup : ∀ {xs : List SRecord} {p : SRecord} {h : ℤ}
    {d d' : List ℕ} {ys : List SRecord},
    List.Chain' keyNe (p :: (xs ++ [(h, d)])) →
    emit (some p) (xs ++ (h, d) :: (h, d') :: ys) = (xs ++ [(h, d)], some (d', d))
  | [], p, h, d, d', ys, hch => by
    simp only [List.nil_append] at hch
    rw [List.chain'_cons] at hch
    have hne : ¬(h = p.1) := fun hc => hch.1 hc.symm
    simp [emit, hne]
  | x :: xs, p, h, d, d', ys, hch => by
    rw [List.cons_append, List.chain'_cons] at hch
    have hne : ¬(x.1 = p.1) := fun hc => hch.1 hc.symm
    have ih := @emit_some_dup xs x h d d' ys hch.2
    simp only [List.cons_append]
    unfold emit
    rw [if_neg hne, ih]

theorem emit_none_dup {xs : List SRecord} {h : ℤ} {d d' : List ℕ}
    {ys : List SRecord} (hch : List.Chain' keyNe (xs ++ [(h, d)])) :
    emit none (xs ++ (h, d) :: (h, d') :: ys) = (xs ++ [(h, d)], some (d', d)) := by
  cases xs with
  | nil => simp [emit]
  | cons x xs =>
    rw [List.cons_append] at hch
    simp only [List.cons_append]
    unfold emit
    rw [emit_some_dup hch]

theorem emit_some_none_iff : ∀ {l : List SRecord} {p : SRecord},
    (emit (some p) l).2 = none ↔ List.Chain' keyNe (p :: l)
  | [], p => by simp [emit, List.chain'_singleton]
  | r :: rest, p => by
    rw [List.chain'_cons]
    unfold emit
    by_cases hc : r.1 = p.1
    · rw [if_pos hc]
      simp [keyNe, hc.symm]
    · rw [if_neg hc]
      have := @emit_some_none_iff rest r
      simp only [this]
      have hpr : keyNe p r := fun hx => hc hx.symm
      simp [hpr]

theorem emit_none_none_iff {l : List SRecord} :
    (emit none l).2 = none ↔ List.Chain' keyNe l := by
  cases l with
  | nil => simp [emit]
  | cons r rest =>
    unfold emit
    exact emit_some_none_iff

/-! ### Bucket selection facts -/

/-- An hkey a 128-bit hash can produce, or an in-range verbatim key. -/
def validHkey (h : ℤ) : Prop := 0 ≤ h ∧ h < 2 ^ HKEY_SIZE

instance : DecidablePred validHkey := fun h =>
  inferInstanceAs (Decidable (0 ≤ h ∧ h < 2 ^ HKEY_SIZE))

theorem bucketIdx_lt (h : ℤ) : bucketIdx h < BUCKETS_NUMBER := by
  unfold bucketIdx
  have hB : (0:ℤ) < (BUCKETS_NUMBER : ℤ) := by unfold BUCKETS_NUMBER; norm_num
  have h1 := Int.emod_nonneg
    (min (floatTruncDivInt (h * BUCKETS_NUMBER)) ((BUCKETS_NUMBER : ℤ) - 1))
    (by omega : (BUCKETS_NUMBER : ℤ) ≠ 0)
  have h2 := Int.emod_lt_of_pos
    (min (floatTruncDivInt (h * BUCKETS_NUMBER)) ((BUCKETS_NUMBER : ℤ) - 1)) hB
  omega

theorem floatTruncDivInt_nonneg {a : ℤ} (h : 0 ≤ a) : 0 ≤ floatTruncDivInt a := by
  unfold floatTruncDivInt
  rw [if_pos h]
  exact Int.natCast_nonneg _

/-- For a valid hkey the Python list index is just `get_bucket_number`. -/
theorem bucketIdx_valid_eq {h : ℤ} (hv : validHkey h) :
    bucketIdx h = get_bucket_number h.toNat BUCKETS_NUMBER := by
  obtain ⟨h0, hub⟩ := hv
  unfold bucketIdx
  have hmul0 : 0 ≤ h * (BUCKETS_NUMBER : ℤ) :=
    mul_nonneg h0 (by unfold BUCKETS_NUMBER; norm_num)
  have hft : floatTruncDivInt (h * BUCKETS_NUMBER) =
      ((floatTruncDiv (h.toNat * BUCKETS_NUMBER) : ℕ) : ℤ) := by
    unfold floatTruncDivInt
    rw [if_pos hmul0]
    congr 2
    have hcast : h * (BUCKETS_NUMBER : ℤ) = ((h.toNat * BUCKETS_NUMBER : ℕ) : ℤ) := by
      push_cast
      rw [Int.toNat_of_nonneg h0]
    rw [hcast, Int.toNat_natCast]
  rw [hft]
  have hB1 : ((BUCKETS_NUMBER : ℤ) - 1) = ((BUCKETS_NUMBER - 1 : ℕ) : ℤ) := by
    unfold BUCKETS_NUMBER; norm_num
  rw [hB1, ← Nat.cast_min]
  have hlt : ((min (floatTruncDiv (h.toNat * BUCKETS_NUMBER)) (BUCKETS_NUMBER - 1) : ℕ) : ℤ)
      < (BUCKETS_NUMBER : ℤ) := by
    have : min (floatTruncDiv (h.toNat * BUCKETS_NUMBER)) (BUCKETS_NUMBER - 1)
        ≤ BUCKETS_NUMBER - 1 := min_le_right _ _
    have hBpos : 1 ≤ BUCKETS_NUMBER := by unfold BUCKETS_NUMBER; norm_num
    omega
  rw [Int.emod_eq_of_lt (Int.natCast_nonneg _) hlt, Int.toNat_natCast]
  rfl

/-- Monotonicity transported to the selector actually indexing the list. -/
theorem bucketIdx_mono {h h' : ℤ} (hv : validHkey h) (hv' : validHkey h')
    (hle : h ≤ h') : bucketIdx h ≤ bucketIdx h' := by
  rw [bucketIdx_valid_eq hv, bucketIdx_valid_eq hv']
  have hub' : h'.toNat < 2 ^ 128 := by
    obtain ⟨h0', hub'⟩ := hv'
    unfold HKEY_SIZE at hub'
    have hc : ((2:ℤ) ^ 128) = ((2 ^ 128 : ℕ) : ℤ) := by norm_num
    rw [hc] at hub'
    exact (Int.toNat_lt h0').mpr hub'
  exact get_bucket_number_mono (Int.toNat_le_toNat hle) hub'

/-! ### What a sequence of `add` calls produces -/

/-- Total payload bytes of a record list. -/
def sumBytes (l : List SRecord) : ℕ := (l.map fun r => r.2.length).sum

theorem sumBytes_append (l : List SRecord) (r : SRecord) :
    sumBytes (l ++ [r]) = sumBytes l + r.2.length := by
  simp [sumBytes]

/-- The Shuffler state after accepting the records of `done` (hkeys already
computed), before or after the spill. -/
def memState (d : Bool) (done : List SRecord) : ShufflerState :=
  ⟨d, false, sumBytes done, true, some done, List.replicate BUCKETS_NUMBER []⟩

def spillState (d : Bool) (done : List SRecord) : ShufflerState :=
  ⟨d, false, sumBytes done, false, none, bucketsOf done⟩

/-- The state reached from a fresh Shuffler by `add`-ing `done`, phase decided
by the threshold. -/
def reachedState (d : Bool) (done : List SRecord) : ShufflerState :=
  if sumBytes done ≤ MAX_MEM_BUFFER_SIZE then memState d done else spillState d done

/-- `bucketsOf` gains one record in the bucket its hkey selects. -/
theorem bucketsOf_append (l : List SRecord) (r : SRecord) :
    bucketsOf (l ++ [r]) =
      (bucketsOf l).set (bucketIdx r.1)
        ((bucketsOf l).getD (bucketIdx r.1) [] ++ [r]) := by
  have hlen : (bucketsOf l).length = BUCKETS_NUMBER := by
    simp [bucketsOf]
  have hidx : bucketIdx r.1 < BUCKETS_NUMBER := bucketIdx_lt r.1
  have hget : (bucketsOf l).getD (bucketIdx r.1) [] =
      l.filter fun x => bucketIdx x.1 = bucketIdx r.1 := by
    rw [List.getD_eq_getElem _ _ (by rw [hlen]; exact hidx)]
    simp [bucketsOf]
  apply List.ext_getElem
  · simp [bucketsOf, List.length_set]
  · intro j hj1 hj2
    have hjB : j < BUCKETS_NUMBER := by
      simpa [bucketsOf] using hj1
    rw [List.getElem_set]
    by_cases hcase : bucketIdx r.1 = j
    · rw [if_pos hcase, hget]
      simp only [bucketsOf, List.getElem_map, List.getElem_range]
      rw [List.filter_append]
      subst hcase
      simp
    · rw [if_neg hcase]
      simp only [bucketsOf, List.getElem_map, List.getElem_range]
      rw [List.filter_append]
      have : ((decide (bucketIdx r.1 = j)) = false) := by
        simpa using hcase
      simp [this]

/-- With a nonnegative hkey, `_add_to_bucket` cannot raise and appends to the
selected bucket. -/
theorem addToBucket_nonneg {s : ShufflerState} {h : ℤ} {d : List ℕ}
    (h0 : 0 ≤ h) :
    addToBucket s h d =
      ({ s with buckets :=
          s.buckets.set (bucketIdx h) ((s.buckets.getD (bucketIdx h) []) ++ [(h, d)]) },
        none) := by
  unfold addToBucket
  have hbn : 0 ≤ min (floatTruncDivInt (h * BUCKETS_NUMBER)) ((BUCKETS_NUMBER : ℤ) - 1) := by
    apply le_min
    · exact floatTruncDivInt_nonneg (mul_nonneg h0 (by unfold BUCKETS_NUMBER; norm_num))
    · unfold BUCKETS_NUMBER; norm_num
  rw [if_neg (by unfold BUCKETS_NUMBER at hbn ⊢; omega)]

/-- Draining records with nonnegative hkeys into correctly-filled buckets keeps
them correctly filled; nothing else in the state changes. -/
theorem spillAll_bucketsOf :
    ∀ (l done : List SRecord) (s : ShufflerState), (∀ r ∈ l, 0 ≤ r.1) →
      s.buckets = bucketsOf done →
      spillAll s l = ({ s with buckets := bucketsOf (done ++ l) }, none)
  | [], done, s, _, hb => by
    simp only [spillAll, List.append_nil, ← hb]
  | r :: rs, done, s, hval, hb => by
    have h0 : 0 ≤ r.1 := hval r (List.mem_cons_self r rs)
    unfold spillAll
    rw [addToBucket_nonneg h0]
    have hstep : (s.buckets.set (bucketIdx r.1)
        ((s.buckets.getD (bucketIdx r.1) []) ++ [(r.1, r.2)])) = bucketsOf (done ++ [r]) := by
      rw [bucketsOf_append, hb]
    have := spillAll_bucketsOf rs (done ++ [r])
      { s with buckets :=
          s.buckets.set (bucketIdx r.1) ((s.buckets.getD (bucketIdx r.1) []) ++ [(r.1, r.2)]) }
      (fun x hx => hval x (List.mem_cons_of_mem r hx)) hstep
    dsimp only
    rw [this]
    simp [List.append_assoc]

theorem bucketsOf_nil : bucketsOf [] = List.replicate BUCKETS_NUMBER [] := by
  unfold bucketsOf
  simp [List.map_const']

theorem add_reached {hasher : ℤ → ℕ} {d : Bool} {done : List SRecord} {k : ℤ}
    {dta : List ℕ} (hvdone : ∀ r ∈ done, 0 ≤ r.1)
    (hke : 0 ≤ effHkey hasher d k) :
    Shuffler.add hasher (reachedState d done) k dta =
      (reachedState d (done ++ [(effHkey hasher d k, dta)]), none) := by
  have hsum' : sumBytes (done ++ [(effHkey hasher d k, dta)]) = sumBytes done + dta.length :=
    sumBytes_append done _
  by_cases hsum : sumBytes done ≤ MAX_MEM_BUFFER_SIZE
  · rw [reachedState, if_pos hsum]
    unfold Shuffler.add memState
    dsimp only
    rw [if_neg (by simp)]
    rw [if_pos rfl]
    have hek : (if d = true then k else ((hasher k : ℕ) : ℤ)) = effHkey hasher d k := rfl
    rw [hek]
    unfold addToMemBuffer
    dsimp only
    simp only [Option.getD_some]
    by_cases hspill : MAX_MEM_BUFFER_SIZE < sumBytes done + dta.length
    · rw [if_pos hspill]
      have hval : ∀ r ∈ done ++ [(effHkey hasher d k, dta)], (0:ℤ) ≤ r.1 := by
        intro r hr
        rcases List.mem_append.mp hr with hr | hr
        · exact hvdone r hr
        · rcases List.mem_singleton.mp hr with rfl
          exact hke
      have hsp := spillAll_bucketsOf (done ++ [(effHkey hasher d k, dta)]) []
        ⟨d, false, sumBytes done + dta.length, true,
          some (done ++ [(effHkey hasher d k, dta)]), List.replicate BUCKETS_NUMBER []⟩
        hval (by dsimp only; exact bucketsOf_nil.symm)
      rw [hsp]
      dsimp only
      rw [reachedState, if_neg (by omega)]
      unfold spillState
      simp [hsum']
    · rw [if_neg hspill]
      rw [reachedState, if_pos (by omega)]
      unfold memState
      simp [hsum']
  · rw [reachedState, if_neg hsum]
    unfold Shuffler.add spillState
    dsimp only
    rw [if_neg (by simp)]
    rw [if_neg (by simp)]
    have hek : (if d = true then k else ((hasher k : ℕ) : ℤ)) = effHkey hasher d k := rfl
    rw [hek]
    rw [addToBucket_nonneg hke]
    rw [reachedState, if_neg (by omega)]
    unfold spillState
    rw [bucketsOf_append]
    simp [hsum']

/-- Effective records stored for a list of `add` arguments. -/
def effRecs (hasher : ℤ → ℕ) (d : Bool) (recs : List (ℤ × List ℕ)) : List SRecord :=
  recs.map fun r => (effHkey hasher d r.1, r.2)

theorem addAll_reached {hasher : ℤ → ℕ} {d : Bool} :
    ∀ (recs : List (ℤ × List ℕ)) (done : List SRecord),
      (∀ r ∈ done, 0 ≤ r.1) → (∀ r ∈ recs, 0 ≤ effHkey hasher d r.1) →
      addAll hasher (reachedState d done) recs =
        (reachedState d (done ++ effRecs hasher d recs), none)
  | [], done, _, _ => by simp [addAll, effRecs]
  | (k, dta) :: rs, done, hvdone, hv => by
    have hke : 0 ≤ effHkey hasher d k := hv (k, dta) (List.mem_cons_self _ _)
    unfold addAll
    rw [add_reached hvdone hke]
    dsimp only
    have hvdone' : ∀ r ∈ done ++ [(effHkey hasher d k, dta)], (0:ℤ) ≤ r.1 := by
      intro r hr
      rcases List.mem_append.mp hr with hr | hr
      · exact hvdone r hr
      · rcases List.mem_singleton.mp hr with rfl
        exact hke
    rw [addAll_reached rs (done ++ [(effHkey hasher d k, dta)]) hvdone'
      (fun r hr => hv r (List.mem_cons_of_mem _ hr))]
    simp [effRecs, List.append_assoc]

/-- Full characterization of a fresh Shuffler after any sequence of successful
`add` calls: phase decided by the 1 GiB threshold; in memory the buffer holds
the records in insertion order; after the spill each record sits in the bucket
its hkey selects. -/
theorem addAll_init {hasher : ℤ → ℕ} {d : Bool} {recs : List (ℤ × List ℕ)}
    (hv : ∀ r ∈ recs, 0 ≤ effHkey hasher d r.1) :
    addAll hasher (initShuffler d) recs =
      (reachedState d (effRecs hasher d recs), none) := by
  have hinit : initShuffler d = reachedState d [] := by
    rw [reachedState, if_pos (by simp [sumBytes, MAX_MEM_BUFFER_SIZE])]
    rfl
  rw [hinit, addAll_reached recs [] (by simp) hv]
  simp

/-! ### Concatenating the buckets recovers the records and the sort -/

/-- Distributing one more record (at the front) prepends it to its bucket. -/
theorem bucketsOf_cons (x : SRecord) (l : List SRecord) :
    bucketsOf (x :: l) =
      (bucketsOf l).set (bucketIdx x.1)
        (x :: (bucketsOf l).getD (bucketIdx x.1) []) := by
  have hlen : (bucketsOf l).length = BUCKETS_NUMBER := by simp [bucketsOf]
  have hidx : bucketIdx x.1 < BUCKETS_NUMBER := bucketIdx_lt x.1
  have hget : (bucketsOf l).getD (bucketIdx x.1) [] =
      l.filter fun y => bucketIdx y.1 = bucketIdx x.1 := by
    rw [List.getD_eq_getElem _ _ (by rw [hlen]; exact hidx)]
    simp [bucketsOf]
  apply List.ext_getElem
  · simp [bucketsOf, List.length_set]
  · intro j hj1 hj2
    rw [List.getElem_set]
    by_cases hcase : bucketIdx x.1 = j
    · rw [if_pos hcase, hget]
      simp only [bucketsOf, List.getElem_map, List.getElem_range]
      rw [List.filter_cons]
      subst hcase
      simp
    · rw [if_neg hcase]
      simp only [bucketsOf, List.getElem_map, List.getElem_range]
      rw [List.filter_cons]
      have : ((decide (bucketIdx x.1 = j)) = false) := by simpa using hcase
      simp [this]

/-- Replacing block `j` by itself with one element pushed on front permutes the
concatenation by moving that element to the front. -/
theorem flatten_set_cons_perm {α : Type} (x : α) :
    ∀ (B : List (List α)) (j : ℕ), j < B.length →
      List.Perm (B.set j (x :: B.getD j [])).flatten (x :: B.flatten)
  | [], j, hj => by simp at hj
  | b :: bs, 0, _ => by simp
  | b :: bs, j + 1, hj => by
    simp only [List.set_cons_succ, List.flatten_cons, List.getD_cons_succ]
    have ih := flatten_set_cons_perm x bs j (by simpa using hj)
    exact (ih.append_left b).trans List.perm_middle

/-- Concatenating the buckets in index order yields a permutation of the
distributed records. -/
theorem bucketsOf_flatten_perm : ∀ l : List SRecord,
    List.Perm (bucketsOf l).flatten l
  | [] => by
    rw [bucketsOf_nil]
    have : ∀ n, (List.replicate n ([] : List SRecord)).flatten = [] := by
      intro n
      induction n with
      | zero => rfl
      | succ n ih => simp [List.replicate_succ, ih]
    rw [this]
  | x :: l => by
    rw [bucketsOf_cons]
    have h1 := flatten_set_cons_perm x (bucketsOf l) (bucketIdx x.1)
      (by simp [bucketsOf, bucketIdx_lt])
    exact h1.trans ((bucketsOf_flatten_perm l).cons x)

theorem flatten_map_sort_perm :
    ∀ bs : List (List SRecord), List.Perm (bs.map sortRecs).flatten bs.flatten
  | [] => List.Perm.refl _
  | b :: bs => by
    simp only [List.map_cons, List.flatten_cons]
    exact (sortRecs_perm b).append (flatten_map_sort_perm bs)

/-- A concatenation of sorted blocks with all cross pairs ordered is sorted. -/
theorem sorted_flatten_of_pairwise :
    ∀ {L : List (List SRecord)}, (∀ b ∈ L, List.Sorted recLE b) →
      List.Pairwise (fun b1 b2 => ∀ x ∈ b1, ∀ y ∈ b2, recLE x y) L →
      List.Sorted recLE L.flatten
  | [], _, _ => List.sorted_nil
  | b :: L, hs, hp => by
    rw [List.flatten_cons]
    unfold List.Sorted at *
    rw [List.pairwise_append]
    rw [List.pairwise_cons] at hp
    refine ⟨hs b (List.mem_cons_self _ _), ?_, ?_⟩
    · exact sorted_flatten_of_pairwise (fun x hx => hs x (List.mem_cons_of_mem _ hx)) hp.2
    · intro x hx y hy
      rw [List.mem_flatten] at hy
      obtain ⟨b', hb', hyb⟩ := hy
      exact hp.1 b' hb' x hx y hyb

/-- The per-bucket-sorted concatenation is globally sorted: bucket selection is
monotone in the hkey, so records in a lower-indexed bucket compare below
records in a higher-indexed one. -/
theorem sorted_flatten_map_sort_bucketsOf {l : List SRecord}
    (hv : ∀ r ∈ l, validHkey r.1) :
    List.Sorted recLE ((bucketsOf l).map sortRecs).flatten := by
  apply sorted_flatten_of_pairwise
  · intro b hb
    rw [List.mem_map] at hb
    obtain ⟨b0, _, rfl⟩ := hb
    exact sortRecs_sorted b0
  · rw [List.pairwise_map]
    unfold bucketsOf
    rw [List.pairwise_map]
    apply List.Pairwise.imp ?_ (List.pairwise_lt_range BUCKETS_NUMBER)
    intro i j hij x hx y hy
    rw [sortRecs, List.mem_insertionSort, List.mem_filter] at hx hy
    have hxv : validHkey x.1 := hv x hx.1
    have hyv : validHkey y.1 := hv y hy.1
    have hxi : bucketIdx x.1 = i := by simpa using hx.2
    have hyj : bucketIdx y.1 = j := by simpa using hy.2
    rcases le_or_lt y.1 x.1 with hle | hlt
    · exfalso
      have := bucketIdx_mono hyv hxv hle
      omega
    · exact Or.inl hlt

/-- The single global sort the implementation performs equals the per-bucket
sort concatenated in bucket order (what the spec describes). -/
theorem sort_flatten_eq_flatten_sort {l : List SRecord}
    (hv : ∀ r ∈ l, validHkey r.1) :
    sortRecs (bucketsOf l).flatten = ((bucketsOf l).map sortRecs).flatten :=
  List.eq_of_perm_of_sorted
    ((sortRecs_perm _).trans (flatten_map_sort_perm (bucketsOf l)).symm)
    (sortRecs_sorted _) (sorted_flatten_map_sort_bucketsOf hv)

/-! ### Strict key order on sorted duplicate-free streams -/

/-- Strictly smaller hkey. -/
def keyLT (x y : SRecord) : Prop := x.1 < y.1

instance : IsTrans SRecord keyLT where
  trans _ _ _ h1 h2 := lt_trans h1 h2

/-- On a stream sorted by the tuple order, the adjacent-difference check of the
emission loop succeeds exactly when all hkeys are pairwise distinct. -/
theorem chain_keyNe_iff_nodup {l : List SRecord} (hs : List.Sorted recLE l) :
    List.Chain' keyNe l ↔ (l.map Prod.fst).Nodup := by
  constructor
  · intro hch
    have hlt : List.Chain' keyLT l := by
      rw [List.chain'_iff_get] at hch ⊢
      intro i hi
      have h1 := hch i hi
      have h2 : recLE (l.get ⟨i, by omega⟩) (l.get ⟨i + 1, by omega⟩) := by
        apply List.Sorted.rel_get_of_lt hs
        simp
      rcases h2 with h2 | ⟨heq, _⟩
      · exact h2
      · exact absurd heq h1
    have hpw : List.Pairwise keyLT l := List.chain'_iff_pairwise.mp hlt
    rw [List.Nodup, List.pairwise_map]
    exact hpw.imp fun h => ne_of_lt h
  · intro hnd
    rw [List.Nodup, List.pairwise_map] at hnd
    exact hnd.chain'

/-- Sorted and duplicate-free means strictly ascending hkeys. -/
theorem sorted_strict_keys {l : List SRecord} (hs : List.Sorted recLE l)
    (hnd : (l.map Prod.fst).Nodup) : List.Sorted (· < ·) (l.map Prod.fst) := by
  rw [List.Nodup, List.pairwise_map] at hnd
  rw [List.Sorted, List.pairwise_map]
  unfold List.Sorted at hs
  exact (hs.and hnd).imp fun h => by
    rcases h.1 with h1 | ⟨he, _⟩
    · exact h1
    · exact absurd he h.2

/-! ### What iteration emits -/

/-- With shuffling enabled, iteration feeds the single global sort of all
records into the emission loop — in both phases. -/
theorem iter_reached_shuffled (eff : List SRecord) :
    (Shuffler.iter (reachedState false eff)).1 = emit none (sortRecs eff) := by
  unfold Shuffler.iter reachedState memState spillState
  by_cases hsum : sumBytes eff ≤ MAX_MEM_BUFFER_SIZE
  · rw [if_pos hsum]
    simp
  · rw [if_neg hsum]
    dsimp only
    rw [if_neg (show ¬(false = true) by simp), if_neg (show ¬(false = true) by simp)]
    rw [sortRecs_congr (bucketsOf_flatten_perm eff)]

/-- With shuffling disabled and the buffer still in memory, iteration feeds the
records in insertion order into the emission loop, with no sort. -/
theorem iter_reached_disabled {recs : List SRecord}
    (hsum : sumBytes recs ≤ MAX_MEM_BUFFER_SIZE) :
    (Shuffler.iter (reachedState true recs)).1 = emit none recs := by
  unfold Shuffler.iter reachedState memState
  rw [if_pos hsum]
  simp

/-- With shuffling disabled `hkey = key` verbatim. -/
theorem effRecs_disabled (hasher : ℤ → ℕ) (recs : List (ℤ × List ℕ)) :
    effRecs hasher true recs = recs := by
  unfold effRecs effHkey
  simp

/-! ## The claims -/

set_option maxRecDepth 8000 in
/-- C3, counterexample: the claim `get_bucket_number(hkey, 1000) =
min(⌊hkey·1000/2^128⌋, 999)` fails at `hkey = ⌊2^128/1000⌋`: the exact floor of
`hkey·1000/2^128` is `0`, but the correctly-rounded binary64 quotient rounds up
across `1.0`, so the code returns bucket `1`. -/
theorem claim_C3_counterexample :
    get_bucket_number 340282366920938463463374607431768211 1000 = 1 ∧
      bucket_index_spec 340282366920938463463374607431768211 1000 = 0 := by
  constructor
  · decide
  · decide

set_option maxRecDepth 8000 in
/-- C3, amended: for every hkey in `[0, 2^128)`, `get_bucket_number(hkey, 1000)`
equals the exact `min(⌊hkey·1000/2^128⌋, 999)` or exceeds it by exactly one
(still capped at 999), the excess occurring when binary64 rounding carries the
quotient across an integer boundary. -/
theorem claim_C3 {h : ℕ} (hub : h < 2 ^ 128) :
    bucket_index_spec h 1000 ≤ get_bucket_number h 1000 ∧
      get_bucket_number h 1000 ≤ min (h * 1000 / 2 ^ 128 + 1) 999 :=
  get_bucket_number_sandwich hub

set_option maxRecDepth 8000 in
theorem claim_C3_witness :
    bucket_index_spec 12345 1000 ≤ get_bucket_number 12345 1000 ∧
      get_bucket_number 12345 1000 ≤ min (12345 * 1000 / 2 ^ 128 + 1) 999 :=
  claim_C3 (by decide)

/-- C4: `get_bucket_number` is monotone non-decreasing on `[0, 2^128)` —
`h₁ < h₂` implies `get_bucket_number h₁ 1000 ≤ get_bucket_number h₂ 1000` —
and, equivalently, a strictly smaller bucket index implies a strictly smaller
hkey. -/
theorem claim_C4 :
    (∀ h1 h2 : ℕ, h1 < 2 ^ 128 → h2 < 2 ^ 128 → h1 < h2 →
        get_bucket_number h1 1000 ≤ get_bucket_number h2 1000) ∧
      (∀ h h' : ℕ, h < 2 ^ 128 → h' < 2 ^ 128 →
        get_bucket_number h 1000 < get_bucket_number h' 1000 → h < h') := by
  constructor
  · intro h1 h2 _ hub2 hlt
    exact get_bucket_number_mono (le_of_lt hlt) hub2
  · intro h h' hub hub' hlt
    by_contra hc
    push_neg at hc
    have := get_bucket_number_mono hc hub
    unfold BUCKETS_NUMBER at this
    omega

set_option maxRecDepth 8000 in
theorem claim_C4_witness :
    get_bucket_number (2 ^ 100) 1000 ≤ get_bucket_number (2 ^ 127) 1000 ∧
      (2 ^ 100 : ℕ) < 2 ^ 127 :=
  ⟨claim_C4.1 (2 ^ 100) (2 ^ 127) (by norm_num) (by norm_num) (by norm_num),
   claim_C4.2 (2 ^ 100) (2 ^ 127) (by norm_num) (by norm_num) (by decide)⟩

set_option maxRecDepth 8000 in
/-- C2: for a spilled Shuffler with shuffling enabled, the single global sort
the implementation performs over the concatenated buckets equals the
concatenation, in bucket-index order, of each bucket's contents sorted — and
(given pairwise-distinct hkeys, so the duplicate check passes) that
per-bucket-sorted concatenation is exactly the stream iteration emits. -/
theorem claim_C2 {l : List SRecord} (hv : ∀ r ∈ l, validHkey r.1) :
    sortRecs (bucketsOf l).flatten = ((bucketsOf l).map sortRecs).flatten ∧
      ((l.map Prod.fst).Nodup →
        (Shuffler.iter (spillState false l)).1 =
          (((bucketsOf l).map sortRecs).flatten, none)) := by
  refine ⟨sort_flatten_eq_flatten_sort hv, fun hnd => ?_⟩
  have hstream : (Shuffler.iter (spillState false l)).1 =
      emit none (sortRecs (bucketsOf l).flatten) := by
    unfold Shuffler.iter spillState
    dsimp only
    rw [if_neg (show ¬(false = true) by simp), if_neg (show ¬(false = true) by simp)]
  rw [hstream, sort_flatten_eq_flatten_sort hv]
  have hsorted : List.Sorted recLE ((bucketsOf l).map sortRecs).flatten :=
    sorted_flatten_map_sort_bucketsOf hv
  have hperm : List.Perm ((bucketsOf l).map sortRecs).flatten l :=
    (flatten_map_sort_perm _).trans (bucketsOf_flatten_perm l)
  have hnd' : ((((bucketsOf l).map sortRecs).flatten).map Prod.fst).Nodup :=
    ((hperm.map Prod.fst).nodup_iff).mpr hnd
  exact emit_none_eq ((chain_keyNe_iff_nodup hsorted).mpr hnd')

set_option maxRecDepth 8000 in
theorem claim_C2_witness :
    (sortRecs (bucketsOf [((1:ℤ), [49]), (0, [48])]).flatten =
        ((bucketsOf [((1:ℤ), [49]), (0, [48])]).map sortRecs).flatten) ∧
      (Shuffler.iter (spillState false [((1:ℤ), [49]), (0, [48])])).1 =
        (((bucketsOf [((1:ℤ), [49]), (0, [48])]).map sortRecs).flatten, none) :=
  ⟨(claim_C2 (by decide)).1, (claim_C2 (by decide)).2 (by decide)⟩

/-- C6: writing any record sequence into a bucket and reading the file back
with `read_values` yields exactly that sequence, bit-for-bit and in insertion
order, each hkey occupying exactly 16 bytes of the frame. -/
theorem claim_C6 {recs : List (ℕ × List ℕ)}
    (hrecs : ∀ r ∈ recs, r.1 < 2 ^ 128 ∧ r.2.length < 2 ^ 64) :
    read_values (bucketFile recs) = .ok recs ∧
      ∀ r ∈ recs, (hkey_to_bytes r.1).length = 16 :=
  ⟨read_values_bucketFile hrecs, fun r _ => hkey_to_bytes_length r.1⟩

theorem claim_C6_witness :
    read_values (bucketFile [(7, []), (340282366920938463463374607431768211455, [0, 255, 7])]) =
        .ok [(7, []), (340282366920938463463374607431768211455, [0, 255, 7])] ∧
      ∀ r ∈ ([(7, []), (340282366920938463463374607431768211455, [0, 255, 7])] :
          List (ℕ × List ℕ)), (hkey_to_bytes r.1).length = 16 :=
  claim_C6 (by decide)

/-- C8: entering iteration sets `_read_only`, and from then on every `add`
call fails with the `add() cannot be called after __iter__` assertion and
returns the state unchanged (the check precedes every mutation). -/
theorem claim_C8 (hasher : ℤ → ℕ) (s : ShufflerState) (k : ℤ) (dta : List ℕ) :
    ((Shuffler.iter s).2).read_only = true ∧
      Shuffler.add hasher (Shuffler.iter s).2 k dta =
        ((Shuffler.iter s).2, some .addAfterIter) :=
  ⟨rfl, rfl⟩

/-- C9, counterexample: with `disable_shuffling=true` an in-memory `add` with
the out-of-range integer key `2^128`, or the negative key `-1`, succeeds with
no error of any kind — the claim that such keys fail immediately is false.
(The code's only key validation is the `isinstance(hkey, int)` assertion in
`_add_to_bucket`, which no in-memory `add` reaches and which never checks the
128-bit range.) -/
theorem claim_C9_counterexample :
    (Shuffler.add (fun _ => 0) (initShuffler true) (2 ^ 128) [120]).2 = none ∧
      (Shuffler.add (fun _ => 0) (initShuffler true) (-1) [120]).2 = none := by
  constructor
  · decide
  · decide

/-- Oversized keys land in the last bucket: for `2^128 ≤ k`, the float quotient
is at least `1000`, so the `min` clamp selects bucket `999`. -/
theorem bucketIdx_big {k : ℤ} (h1 : (2:ℤ) ^ 128 ≤ k) (h2 : k < (2:ℤ) ^ 160) :
    min (floatTruncDivInt (k * BUCKETS_NUMBER)) ((BUCKETS_NUMBER : ℤ) - 1) = 999 ∧
      bucketIdx k = 999 := by
  have hk0 : (0:ℤ) ≤ k := le_trans (by norm_num) h1
  have hm0 : 0 ≤ k * (BUCKETS_NUMBER : ℤ) :=
    mul_nonneg hk0 (by unfold BUCKETS_NUMBER; norm_num)
  have hft : floatTruncDivInt (k * BUCKETS_NUMBER) =
      ((floatTruncDiv (k.toNat * BUCKETS_NUMBER) : ℕ) : ℤ) := by
    unfold floatTruncDivInt
    rw [if_pos hm0]
    congr 2
    have hcast : k * (BUCKETS_NUMBER : ℤ) = ((k.toNat * BUCKETS_NUMBER : ℕ) : ℤ) := by
      push_cast
      rw [Int.toNat_of_nonneg hk0]
    rw [hcast, Int.toNat_natCast]
  have hklo : 2 ^ 128 ≤ k.toNat := by
    have := Int.toNat_le_toNat h1
    have h128 : ((2:ℤ) ^ 128).toNat = 2 ^ 128 := by
      have : ((2:ℤ) ^ 128) = ((2 ^ 128 : ℕ) : ℤ) := by norm_num
      rw [this, Int.toNat_natCast]
    omega
  have hkhi : k.toNat < 2 ^ 160 := by
    have hc : ((2:ℤ) ^ 160) = ((2 ^ 160 : ℕ) : ℤ) := by norm_num
    rw [hc] at h2
    exact (Int.toNat_lt hk0).mpr h2
  have h180 : k.toNat * BUCKETS_NUMBER < 2 ^ 180 := by
    unfold BUCKETS_NUMBER
    calc k.toNat * 1000 < 2 ^ 160 * 1000 := by
          exact Nat.mul_lt_mul_of_lt_of_le hkhi (le_refl _) (by norm_num)
      _ < 2 ^ 180 := by norm_num
  have hlow : 1000 ≤ floatTruncDiv (k.toNat * BUCKETS_NUMBER) := by
    have hfl := floatTruncDiv_lower h180
    have hge : 1000 ≤ k.toNat * BUCKETS_NUMBER / 2 ^ 128 := by
      rw [Nat.le_div_iff_mul_le (by norm_num : (0:ℕ) < 2 ^ 128)]
      unfold BUCKETS_NUMBER
      calc (1000:ℕ) * 2 ^ 128 = 2 ^ 128 * 1000 := by ring
        _ ≤ k.toNat * 1000 := Nat.mul_le_mul_right _ hklo
    omega
  have hminz : min (floatTruncDivInt (k * BUCKETS_NUMBER)) ((BUCKETS_NUMBER : ℤ) - 1)
      = 999 := by
    rw [hft]
    have h999 : ((BUCKETS_NUMBER : ℤ) - 1) = 999 := by unfold BUCKETS_NUMBER; norm_num
    rw [h999]
    apply min_eq_right
    exact_mod_cast (by omega : (999:ℕ) ≤ floatTruncDiv (k.toNat * BUCKETS_NUMBER))
  refine ⟨hminz, ?_⟩
  unfold bucketIdx
  rw [hminz]
  decide

/-- C9, amended: `add` never range-checks an integer key.  In the in-memory
phase any integer key whatsoever (negative or arbitrarily large) is accepted
without error; in the spilled phase with `disable_shuffling=true` a key `k`
with `2^128 ≤ k < 2^160` passes the `isinstance` assertion and is silently
clamped into the last bucket (999) rather than rejected.  (Non-integer keys —
not representable here, where keys are `ℤ` — are the only ones rejected, by
the `isinstance` assertion in `_add_to_bucket`, hence never in the in-memory
phase.) -/
theorem claim_C9 (hasher : ℤ → ℕ) :
    (∀ (s : ShufflerState) (k : ℤ) (dta : List ℕ),
        s.read_only = false → s.in_memory = true →
        s.total_bytes + dta.length ≤ MAX_MEM_BUFFER_SIZE →
        (Shuffler.add hasher s k dta).2 = none) ∧
      (∀ (s : ShufflerState) (k : ℤ) (dta : List ℕ),
        s.read_only = false → s.in_memory = false → s.disable_shuffling = true →
        (2:ℤ) ^ 128 ≤ k → k < (2:ℤ) ^ 160 →
        Shuffler.add hasher s k dta =
          ({ s with
              total_bytes := s.total_bytes + dta.length
              buckets := s.buckets.set 999 ((s.buckets.getD 999 []) ++ [(k, dta)]) },
            none)) := by
  constructor
  · intro s k dta h1 h2 h3
    unfold Shuffler.add
    rw [if_neg (by rw [h1]; simp)]
    dsimp only
    rw [if_pos (by rw [h2])]
    unfold addToMemBuffer
    dsimp only
    rw [if_neg (by omega)]
  · intro s k dta h1 h2 h3 h4 h5
    unfold Shuffler.add
    rw [if_neg (by rw [h1]; simp)]
    dsimp only
    rw [if_neg (by rw [h2]; simp), if_pos (by rw [h3])]
    unfold addToBucket
    obtain ⟨hmin, hidx⟩ := bucketIdx_big h4 h5
    dsimp only
    rw [hmin]
    rw [if_neg (by unfold BUCKETS_NUMBER; norm_num)]
    rw [hidx]

theorem claim_C9_witness :
    (Shuffler.add (fun _ => 0) (initShuffler true) (-7) [9]).2 = none ∧
      Shuffler.add (fun _ => 0)
          ⟨true, false, 0, false, none, List.replicate BUCKETS_NUMBER []⟩ (2 ^ 128) [9] =
        ({ (⟨true, false, 0, false, none, List.replicate BUCKETS_NUMBER []⟩ : ShufflerState) with
            total_bytes := 0 + ([9] : List ℕ).length
            buckets := (List.replicate BUCKETS_NUMBER ([] : List SRecord)).set 999
              (((List.replicate BUCKETS_NUMBER ([] : List SRecord)).getD 999 []) ++
                [((2:ℤ) ^ 128, [9])]) },
          none) :=
  ⟨(claim_C9 (fun _ => 0)).1 (initShuffler true) (-7) [9] rfl rfl (by decide),
   (claim_C9 (fun _ => 0)).2 ⟨true, false, 0, false, none, List.replicate BUCKETS_NUMBER []⟩
     (2 ^ 128) [9] rfl rfl rfl (by norm_num) (by norm_num)⟩

set_option maxRecDepth 2000 in
/-- C5: a fresh Shuffler stays in the in-memory phase exactly while the
cumulative payload bytes are at most `MAX_MEM_BUFFER_SIZE`; the first `add`
pushing them strictly above drains every buffered record into the bucket its
hkey selects, releases the buffer (`mem_buffer = None`), and no later `add`
ever returns the Shuffler to the in-memory phase. -/
theorem claim_C5 {hasher : ℤ → ℕ} {d : Bool} {recs : List (ℤ × List ℕ)}
    (hv : ∀ r ∈ recs, 0 ≤ effHkey hasher d r.1) :
    (addAll hasher (initShuffler d) recs).2 = none ∧
      ((addAll hasher (initShuffler d) recs).1.in_memory = true ↔
        sumBytes (effRecs hasher d recs) ≤ MAX_MEM_BUFFER_SIZE) ∧
      (sumBytes (effRecs hasher d recs) ≤ MAX_MEM_BUFFER_SIZE →
        (addAll hasher (initShuffler d) recs).1.mem_buffer =
            some (effRecs hasher d recs) ∧
          (addAll hasher (initShuffler d) recs).1.buckets =
            List.replicate BUCKETS_NUMBER []) ∧
      (MAX_MEM_BUFFER_SIZE < sumBytes (effRecs hasher d recs) →
        (addAll hasher (initShuffler d) recs).1.mem_buffer = none ∧
          (addAll hasher (initShuffler d) recs).1.buckets =
            bucketsOf (effRecs hasher d recs)) ∧
      (∀ (s : ShufflerState) (k : ℤ) (dta : List ℕ), s.in_memory = false →
        ((Shuffler.add hasher s k dta).1).in_memory = false) := by
  rw [addAll_init hv]
  dsimp only
  refine ⟨rfl, ?_, ?_, ?_, ?_⟩
  · unfold reachedState
    by_cases hsum : sumBytes (effRecs hasher d recs) ≤ MAX_MEM_BUFFER_SIZE
    · rw [if_pos hsum]
      simp [memState, hsum]
    · rw [if_neg hsum]
      simp [spillState, hsum]
  · intro hsum
    unfold reachedState
    rw [if_pos hsum]
    exact ⟨rfl, rfl⟩
  · intro hsum
    unfold reachedState
    rw [if_neg (by omega)]
    exact ⟨rfl, rfl⟩
  · intro s k dta hmem
    by_cases hro : s.read_only = true
    · unfold Shuffler.add
      rw [if_pos hro]
      exact hmem
    · unfold Shuffler.add
      rw [if_neg hro]
      dsimp only
      rw [if_neg (by simp [hmem])]
      unfold addToBucket
      dsimp only
      split_ifs <;> exact hmem

theorem claim_C5_witness :
    (addAll (fun _ => 0) (initShuffler true) [(3, [7])]).2 = none ∧
      (addAll (fun _ => 0) (initShuffler true) [(3, [7])]).1.in_memory = true ∧
      ((addAll (fun _ => 0) (initShuffler true) [(3, [7])]).1.mem_buffer =
          some (effRecs (fun _ => 0) true [(3, [7])]) ∧
        (addAll (fun _ => 0) (initShuffler true) [(3, [7])]).1.buckets =
          List.replicate BUCKETS_NUMBER []) ∧
      ((Shuffler.add (fun _ => 0)
          ⟨true, false, 0, false, none, List.replicate BUCKETS_NUMBER []⟩ 5 [1]).1).in_memory
        = false :=
  ⟨(@claim_C5 (fun _ => 0) true [(3, [7])] (by decide)).1,
   (@claim_C5 (fun _ => 0) true [(3, [7])] (by decide)).2.1.mpr (by decide),
   (@claim_C5 (fun _ => 0) true [(3, [7])] (by decide)).2.2.1 (by decide),
   (@claim_C5 (fun _ => 0) true [(3, [7])] (by decide)).2.2.2.2 _ 5 [1] rfl⟩

/-- C7: during iteration, when the next record's hkey equals the previously
yielded one, the Shuffler raises `DuplicatedKeysError` carrying the current
and the previous payload, after having yielded every record preceding the
collision; e.g. inserting `(7, b"x")` then `(7, b"y")` with shuffling disabled
yields `(7, b"x")` and then raises with payloads `b"y"` and `b"x"`. -/
theorem claim_C7 {hasher : ℤ → ℕ} {xs : List SRecord} {h : ℤ} {d d' : List ℕ}
    {ys : List SRecord}
    (hv : ∀ r ∈ xs ++ (h, d) :: (h, d') :: ys, (0:ℤ) ≤ r.1)
    (hch : List.Chain' keyNe (xs ++ [(h, d)]))
    (hsum : sumBytes (xs ++ (h, d) :: (h, d') :: ys) ≤ MAX_MEM_BUFFER_SIZE) :
    (addAll hasher (initShuffler true) (xs ++ (h, d) :: (h, d') :: ys)).2 = none ∧
      (Shuffler.iter
          (addAll hasher (initShuffler true) (xs ++ (h, d) :: (h, d') :: ys)).1).1 =
        (xs ++ [(h, d)], some (d', d)) := by
  have hv' : ∀ r ∈ xs ++ (h, d) :: (h, d') :: ys,
      0 ≤ effHkey hasher true r.1 := fun r hr => hv r hr
  rw [addAll_init hv']
  dsimp only
  refine ⟨rfl, ?_⟩
  rw [effRecs_disabled, iter_reached_disabled hsum]
  exact emit_none_dup hch

theorem claim_C7_witness :
    (addAll (fun _ => 0) (initShuffler true) [((7:ℤ), [120]), (7, [121])]).2 = none ∧
      (Shuffler.iter
          (addAll (fun _ => 0) (initShuffler true) [((7:ℤ), [120]), (7, [121])]).1).1 =
        ([(7, [120])], some ([121], [120])) :=
  @claim_C7 (fun _ => 0) [] 7 [120] [121] [] (by decide) (by simp) (by decide)

set_option maxRecDepth 8000 in
/-- C1, counterexample: with `disable_shuffling=true` no sort occurs, so
records are *not* emitted in ascending key order regardless of insertion
order: inserting keys 5 then 2 yields them in insertion order 5, 2, which is
not ascending. -/
theorem claim_C1_counterexample :
    (addAll (fun _ => 0) (initShuffler true) [((5:ℤ), [53]), (2, [50])]).2 = none ∧
      (Shuffler.iter
          (addAll (fun _ => 0) (initShuffler true) [((5:ℤ), [53]), (2, [50])]).1).1 =
        ([(5, [53]), (2, [50])], none) ∧
      ¬ List.Sorted (· < ·)
          (((Shuffler.iter (addAll (fun _ => 0) (initShuffler true)
            [((5:ℤ), [53]), (2, [50])]).1).1.1).map Prod.fst) := by
  refine ⟨by decide, by decide, by decide⟩

/-- C1, amended: with shuffling *enabled*, adding any records whose (hashed)
hkeys are pairwise distinct and iterating yields exactly those records, each
once, with hkeys strictly ascending — in either phase.  With
`disable_shuffling=true` no sort occurs: in the in-memory phase the records
are emitted in insertion order (ascending only if inserted in ascending
order). -/
theorem claim_C1 {hasher : ℤ → ℕ} :
    (∀ recs : List (ℤ × List ℕ),
      (∀ r ∈ recs, validHkey (effHkey hasher false r.1)) →
      ((effRecs hasher false recs).map Prod.fst).Nodup →
      (addAll hasher (initShuffler false) recs).2 = none ∧
        (Shuffler.iter (addAll hasher (initShuffler false) recs).1).1.2 = none ∧
        List.Perm ((Shuffler.iter (addAll hasher (initShuffler false) recs).1).1.1)
          (effRecs hasher false recs) ∧
        List.Sorted (· < ·)
          (((Shuffler.iter (addAll hasher (initShuffler false) recs).1).1.1).map
            Prod.fst)) ∧
      (∀ recs : List SRecord,
        (∀ r ∈ recs, (0:ℤ) ≤ r.1) → (recs.map Prod.fst).Nodup →
        sumBytes recs ≤ MAX_MEM_BUFFER_SIZE →
        (addAll hasher (initShuffler true) recs).2 = none ∧
          (Shuffler.iter (addAll hasher (initShuffler true) recs).1).1 =
            (recs, none)) := by
  constructor
  · intro recs hv hnd
    have hv0 : ∀ r ∈ recs, 0 ≤ effHkey hasher false r.1 := fun r hr => (hv r hr).1
    rw [addAll_init hv0]
    dsimp only
    refine ⟨rfl, ?_⟩
    rw [iter_reached_shuffled]
    have hnd' : (((sortRecs (effRecs hasher false recs)).map Prod.fst)).Nodup :=
      (((sortRecs_perm _).map Prod.fst).nodup_iff).mpr hnd
    have hout : emit none (sortRecs (effRecs hasher false recs)) =
        (sortRecs (effRecs hasher false recs), none) :=
      emit_none_eq ((chain_keyNe_iff_nodup (sortRecs_sorted _)).mpr hnd')
    rw [hout]
    exact ⟨rfl, sortRecs_perm _, sorted_strict_keys (sortRecs_sorted _) hnd'⟩
  · intro recs hv hnd hsum
    have hv' : ∀ r ∈ recs, 0 ≤ effHkey hasher true r.1 := fun r hr => hv r hr
    rw [addAll_init hv']
    dsimp only
    refine ⟨rfl, ?_⟩
    rw [effRecs_disabled, iter_reached_disabled hsum]
    apply emit_none_eq
    rw [List.Nodup, List.pairwise_map] at hnd
    exact hnd.chain'

set_option maxRecDepth 8000 in
theorem claim_C1_witness :
    ((addAll (fun k => k.toNat) (initShuffler false) [((5:ℤ), [53]), (2, [50])]).2 = none ∧
      (Shuffler.iter
          (addAll (fun k => k.toNat) (initShuffler false) [((5:ℤ), [53]), (2, [50])]).1).1.2
        = none ∧
      List.Perm
        ((Shuffler.iter
          (addAll (fun k => k.toNat) (initShuffler false) [((5:ℤ), [53]), (2, [50])]).1).1.1)
        (effRecs (fun k => k.toNat) false [((5:ℤ), [53]), (2, [50])]) ∧
      List.Sorted (· < ·)
        (((Shuffler.iter
          (addAll (fun k => k.toNat) (initShuffler false) [((5:ℤ), [53]), (2, [50])]).1).1.1).map
          Prod.fst)) ∧
      (addAll (fun k => k.toNat) (initShuffler true) [((2:ℤ), [50]), (5, [53])]).2 = none ∧
      (Shuffler.iter
          (addAll (fun k => k.toNat) (initShuffler true) [((2:ℤ), [50]), (5, [53])]).1).1 =
        ([(2, [50]), (5, [53])], none) :=
  ⟨(@claim_C1 (fun k => k.toNat)).1 [((5:ℤ), [53]), (2, [50])] (by decide) (by decide),
   (@claim_C1 (fun k => k.toNat)).2 [((2:ℤ), [50]), (5, [53])] (by decide) (by decide)
     (by decide)⟩

/-- C10: with shuffling enabled, iteration raises `DuplicatedKeysError` exactly
when two accepted records share an hkey, regardless of insertion positions —
the pre-emission sort makes equal hkeys adjacent, where the emission loop's
adjacency check catches them; conversely an error-free iteration certifies all
hkeys pairwise distinct. -/
theorem claim_C10 {hasher : ℤ → ℕ} {recs : List (ℤ × List ℕ)}
    (hv : ∀ r ∈ recs, 0 ≤ effHkey hasher false r.1) :
    (addAll hasher (initShuffler false) recs).2 = none ∧
      ((Shuffler.iter (addAll hasher (initShuffler false) recs).1).1.2 = none ↔
        ((effRecs hasher false recs).map Prod.fst).Nodup) := by
  rw [addAll_init hv]
  dsimp only
  refine ⟨rfl, ?_⟩
  rw [iter_reached_shuffled, emit_none_none_iff,
    chain_keyNe_iff_nodup (sortRecs_sorted _)]
  exact ((sortRecs_perm _).map Prod.fst).nodup_iff

theorem claim_C10_witness :
    (addAll (fun _ => 0) (initShuffler false) [((1:ℤ), [2]), (3, [4])]).2 = none ∧
      ((Shuffler.iter
          (addAll (fun _ => 0) (initShuffler false) [((1:ℤ), [2]), (3, [4])]).1).1.2 = none ↔
        ((effRecs (fun _ => 0) false [((1:ℤ), [2]), (3, [4])]).map Prod.fst).Nodup) :=
  claim_C10 (by decide)

end Shuffle
